import Mathlib

set_option maxRecDepth 8000

/-!
Shallow embedding of the metrics-aggregation layer of `src/app.py`
(memecoin-radar).

Modelling conventions:
  * A stored field value (`price`, `market_cap`, `total_volume`) is a
    `Value`: a number (modelled as `ℚ`, standing for a Python float/int),
    a string, or `null` (Python `None`).  The ETL scripts always write all
    five keys of a prices document, so a missing key does not occur.
  * Timestamps are seconds since the Unix epoch (`Nat`); the UTC calendar
    day of a timestamp `t` is `t / 86400`, which is exactly the grouping
    performed by Mongo's `$dateToString` with format `%Y-%m-%d`.
  * The Mongo pipelines are embedded operator by operator: `$match` is
    `List.filter`, `$sort` is a stable sort (`sortLe`, ties keep store
    order), `$group` with `$first` keeps the first document per distinct
    key (keys in order of first appearance), and `$group` with `$sum`
    sums the numeric values per distinct key.
  * `datetime.utcnow()` is an explicit `now : Nat` parameter.
  * Each endpoint body runs inside `try ... except Exception as e: raise
    HTTPException(500, f"An error occurred: {str(e)}")`.  FastAPI's
    `HTTPException` derives from `Exception`, so a 404 raised inside the
    `try` is caught and re-raised as a 500; `catchAll` models this.
-/

/-- A value stored in a numeric field of a prices document: a number
(Python int/float, modelled as `ℚ`), a string, or BSON null. -/
inductive Value where
  | num (x : ℚ)
  | str (s : String)
  | null
deriving DecidableEq

/-- One document of the `prices` collection. -/
structure Obs where
  coin_id : String
  date : Nat
  price : Value
  market_cap : Value
  total_volume : Value
deriving DecidableEq

/-- Seconds in a UTC calendar day. -/
def secPerDay : Nat := 86400

/-- The `%Y-%m-%d` day key of a timestamp. -/
def dayOf (t : Nat) : Nat := t / secPerDay

/-- `re.sub(r'[^\d\.\-]', '', s)`: keep only digits, periods and minus
signs of a string. -/
def stripNonNumeric (s : String) : String :=
  String.mk (s.data.filter (fun c => c.isDigit || c == '.' || c == '-'))

/-- `clean_numeric_string` from `src/app.py`: strings are stripped of
every character that is not a digit, period or minus sign; any other
value is returned unchanged. -/
def clean_numeric_string : Value → Value
  | .str s => .str (stripNonNumeric s)
  | v => v

/-- Numeric value of a list of decimal digit characters. -/
def digitsVal (cs : List Char) : Nat :=
  cs.foldl (fun n c => n * 10 + (c.toNat - 48)) 0

/-- Python `float()` applied to an unsigned string over the alphabet
`[0-9.-]`: an integer part and an optional fractional part separated by
one period, at least one digit overall, no stray minus sign. -/
def pyFloatUnsigned (body : String) : Option ℚ :=
  match body.splitOn (".") with
  | [ip] =>
      if ip.data.all Char.isDigit && decide (0 < ip.length) then
        some ((digitsVal ip.data : ℚ))
      else none
  | [ip, fp] =>
      if ip.data.all Char.isDigit && fp.data.all Char.isDigit
          && decide (0 < ip.length + fp.length) then
        some ((digitsVal ip.data : ℚ) + (digitsVal fp.data : ℚ) / (10 : ℚ) ^ fp.length)
      else none
  | _ => none

/-- Python `float()` applied to a string that contains only digits,
periods and minus signs (every call site cleans the string first). -/
def pyFloatOfString (s : String) : Option ℚ :=
  if s.startsWith ("-") then (pyFloatUnsigned (s.drop 1)).map (fun q => -q)
  else pyFloatUnsigned s

/-- Python `float(value)`: a number converts to itself, a string is
parsed, `None` raises `TypeError` (here: `none`). -/
def pyFloat : Value → Option ℚ
  | .num x => some x
  | .str s => pyFloatOfString s
  | .null => none

/-- `float(clean_numeric_string(value))`, propagating a parse failure. -/
def parseField (v : Value) : Option ℚ := pyFloat (clean_numeric_string v)

/-- The `try: float(clean_numeric_string(value)) except: 0.0` pattern used
by `top_coins` and `get_top_movers`: the Numeric Normalizer of the spec. -/
def normalizeNum (v : Value) : ℚ := (parseField v).getD 0

/-- Round-half-to-even to an integer: the semantics of Python `round`. -/
def roundHalfEven (x : ℚ) : ℤ :=
  let f := Int.floor x
  let r := x - (f : ℚ)
  if r < 1/2 then f
  else if 1/2 < r then f + 1
  else if f % 2 = 0 then f else f + 1

/-- Python `round(x, 2)`. -/
def round2 (x : ℚ) : ℚ := (roundHalfEven (x * 100) : ℚ) / 100

/-- Stable insertion of `x` into `l`: `x` goes in front of the first
element `y` with `le x y`. -/
def insertLe (le : α → α → Bool) (x : α) : List α → List α
  | [] => [x]
  | y :: ys => if le x y then x :: y :: ys else y :: insertLe le x ys

/-- Stable sort used to model Python `sorted` and Mongo `$sort`: an
earlier element precedes a later one whenever they tie. -/
def sortLe (le : α → α → Bool) : List α → List α
  | [] => []
  | x :: xs => insertLe le x (sortLe le xs)

/-- Distinct values of `key` over `l`, in order of first appearance. -/
def firstKeys (key : α → κ) [DecidableEq κ] (l : List α) : List κ :=
  l.foldl (fun ks o => if key o ∈ ks then ks else ks ++ [key o]) []

/-- Mongo `$group` with `$first` accumulators: one output document per
distinct key, namely the first document of the pipeline carrying that
key (all `$first` fields come from that same document). -/
def groupFirst (key : α → κ) [DecidableEq κ] (l : List α) : List α :=
  (firstKeys key l).filterMap (fun k => l.find? (fun o => key o = k))

/-- An HTTP error raised by an endpoint (`HTTPException`). -/
structure Http where
  status : Nat
  detail : String
deriving DecidableEq

/-- `str(e)` of a `starlette` `HTTPException`. -/
def excMessage (e : Http) : String := toString e.status ++ ": " ++ e.detail

/-- The blanket `except Exception as e: raise HTTPException(500,
f"An error occurred: {str(e)}")` wrapped around every endpoint body.  It
also catches the endpoint's own `HTTPException(404, ...)`. -/
def catchAll : Except Http α → Except Http α
  | .error e => .error ⟨500, "An error occurred: " ++ excMessage e⟩
  | .ok a => .ok a

/-- A coin of the `/top-coins` response. -/
structure CoinData where
  symbol : String
  last_price : ℚ
  market_cap : ℚ
deriving DecidableEq

/-- The `/top-coins` response. -/
structure TopCoinsResponse where
  total_market_cap : ℚ
  top_10_coins : List CoinData
deriving DecidableEq

/-- The `top_coins` aggregation pipeline: `$sort {date: -1}` then
`$group by coin_id` taking the latest document per coin. -/
def topCoinsGroups (store : List Obs) : List Obs :=
  groupFirst Obs.coin_id (sortLe (fun a b => decide (b.date ≤ a.date)) store)

/-- The per-coin normalization loop of `top_coins`. -/
def processedSnapshots (store : List Obs) : List CoinData :=
  (topCoinsGroups store).map (fun o => ⟨o.coin_id, normalizeNum o.price, normalizeNum o.market_cap⟩)

/-- Comparison used by `sorted(coins, key=market_cap, reverse=True)`. -/
def capDesc (a b : CoinData) : Bool := decide (b.market_cap ≤ a.market_cap)

/-- Sort descending by normalized market cap and truncate: the Ranking
Engine step of `top_coins` (the code instantiates `n := 10`). -/
def topMarketCapRank (n : Nat) (coins : List CoinData) : List CoinData :=
  (sortLe capDesc coins).take n

/-- The `/top-coins` endpoint. -/
def top_coins (store : List Obs) : Except Http TopCoinsResponse :=
  catchAll (
    if (topCoinsGroups store).isEmpty then
      .error ⟨404, "No meme coins found in the database."⟩
    else
      .ok ⟨((processedSnapshots store).map CoinData.market_cap).sum,
           topMarketCapRank 10 (processedSnapshots store)⟩)

/-- One point of a coin's windowed price history. -/
structure Point where
  date : Nat
  price : ℚ
deriving DecidableEq

/-- One entry of the `/top-gainers` and `/top-losers` responses. -/
structure Mover where
  symbol : String
  percentage_change : ℚ
  price_history : List Point
deriving DecidableEq

/-- The `get_top_movers` pipeline: `$match` the last 7 days, `$sort` by
date ascending, `$group` by `(coin_id, calendar day)` keeping the first
document per group, then `$sort` by coin id and date. -/
def windowDocs (store : List Obs) (now : Nat) : List Obs :=
  let lo := now - 7 * secPerDay
  let matched := store.filter (fun o => decide (lo ≤ o.date) && decide (o.date ≤ now))
  let grouped := groupFirst (fun o => (o.coin_id, dayOf o.date))
    (sortLe (fun a b => decide (a.date ≤ b.date)) matched)
  sortLe (fun a b =>
    decide (a.coin_id < b.coin_id) || (decide (a.coin_id = b.coin_id) && decide (a.date ≤ b.date)))
    grouped

/-- Appending a history point to an ordered dictionary keyed by coin id,
as the `coin_price_history` loop of `get_top_movers` does. -/
def addPoint (c : String) (pt : Point) : List (String × List Point) → List (String × List Point)
  | [] => [(c, [pt])]
  | e :: rest => if e.1 = c then (e.1, e.2 ++ [pt]) :: rest else e :: addPoint c pt rest

/-- `coin_price_history`: per-coin chronological daily price lists (the
price of each point already normalized with fallback `0.0`). -/
def coinPriceHistory (store : List Obs) (now : Nat) : List (String × List Point) :=
  (windowDocs store now).foldl
    (fun m o => addPoint o.coin_id ⟨o.date, normalizeNum o.price⟩ m) []

/-- `percentage_change` of a price history: `(last - first) / first * 100`
when the first price is nonzero, else `0.0`. -/
def pctOf (ps : List Point) : ℚ :=
  match ps.head?, ps.getLast? with
  | some a, some b => if a.price ≠ 0 then (b.price - a.price) / a.price * 100 else 0
  | _, _ => 0

/-- The `movers` list: coins with at least two points in their windowed
history, scored at full precision; shorter histories are dropped. -/
def movers (hist : List (String × List Point)) : List Mover :=
  hist.filterMap (fun e =>
    if 2 ≤ e.2.length then some ⟨e.1, pctOf e.2, e.2⟩ else none)

/-- Comparison used to rank movers: descending percentage change for
gainers, ascending for losers (Python `sorted` is stable). -/
def moverCmp (isGainer : Bool) (a b : Mover) : Bool :=
  if isGainer then decide (b.percentage_change ≤ a.percentage_change)
  else decide (a.percentage_change ≤ b.percentage_change)

/-- The ranked movers before output rounding: full-precision sort, then
truncation to the top 10. -/
def rankedMovers (isGainer : Bool) (store : List Obs) (now : Nat) : List Mover :=
  (sortLe (moverCmp isGainer) (movers (coinPriceHistory store now))).take 10

/-- The response list of `get_top_movers`: ranking happens at full
precision, the displayed percentage is rounded to 2 decimals at output. -/
def topMoversList (isGainer : Bool) (store : List Obs) (now : Nat) : List Mover :=
  (rankedMovers isGainer store now).map
    (fun m => ⟨m.symbol, round2 m.percentage_change, m.price_history⟩)

/-- The `/top-gainers` and `/top-losers` endpoint body. -/
def get_top_movers (isGainer : Bool) (store : List Obs) (now : Nat) :
    Except Http (List Mover) :=
  catchAll (
    if (windowDocs store now).isEmpty then
      .error ⟨404, "No price data found for the last 7 days."⟩
    else .ok (topMoversList isGainer store now))

/-- Mongo `$sum` semantics: non-numeric values are ignored. -/
def numOr0 : Value → ℚ
  | .num x => x
  | _ => 0

/-- Mongo `$group` by calendar day with `$sum: "$total_volume"`: one
entry per distinct day of `l`, holding the sum of the numeric
`total_volume` values of every document of that day. -/
def volumeByDay (l : List Obs) : List (Nat × ℚ) :=
  (firstKeys (fun o => dayOf o.date) l).map
    (fun k => (k, ((l.filter (fun o => dayOf o.date = k)).map (fun o => numOr0 o.total_volume)).sum))

/-- The documents matched by `traded_volume`; query parameters are the
already-parsed `YYYY-MM-DD` day numbers (`strptime` yields midnight). -/
def tradedDocs (startP endP : Option Nat) (store : List Obs) (now : Nat) : List Obs :=
  let hi := match endP with | some d => d * secPerDay | none => now
  let lo := match startP with | some d => d * secPerDay | none => hi - 30 * secPerDay
  store.filter (fun o => decide (lo ≤ o.date) && decide (o.date ≤ hi))

/-- The `volume_over_time` series: per-day sums sorted by day ascending. -/
def tradedSeries (startP endP : Option Nat) (store : List Obs) (now : Nat) : List (Nat × ℚ) :=
  sortLe (fun a b => decide (a.1 ≤ b.1)) (volumeByDay (tradedDocs startP endP store now))

/-- The `/traded-volume` endpoint. -/
def traded_volume (startP endP : Option Nat) (store : List Obs) (now : Nat) :
    Except Http (List (Nat × ℚ)) :=
  catchAll (
    if (tradedSeries startP endP store now).isEmpty then
      .error ⟨404, "No traded volume data found for the specified period."⟩
    else .ok (tradedSeries startP endP store now))

/-- The latest-snapshot pipelines of `market_sentiment`: `$match` dates
up to the cutoff, `$sort {date: -1}`, `$group by coin_id` taking the
latest document; turned into the symbol-keyed lookup dictionary. -/
def latestSnap (store : List Obs) (cutoff : Nat) : List (String × Obs) :=
  (groupFirst Obs.coin_id (sortLe (fun a b => decide (b.date ≤ a.date))
      (store.filter (fun o => decide (o.date ≤ cutoff))))).map
    (fun o => (o.coin_id, o))

/-- The accumulator triple of the sentiment loop. -/
structure SentState where
  advancing : ℚ
  declining : ℚ
  total : ℚ
deriving DecidableEq

/-- The parse step for one coin of the latest snapshot: the matching
previous-snapshot entry, then `float(clean_numeric_string(...))` on
`last_price`, `previous_price` and `market_cap`; `none` when the coin is
absent from the previous snapshot or any of the three parses fails. -/
def parse3 (prev : List (String × Obs)) (e : String × Obs) : Option (ℚ × ℚ × ℚ) :=
  match (prev.find? (fun p => p.1 = e.1)).map Prod.snd with
  | none => none
  | some q =>
    match parseField e.2.price, parseField q.price, parseField e.2.market_cap with
    | some lp, some pp, some mc => some (lp, pp, mc)
    | _, _, _ => none

/-- One iteration of the sentiment loop: skipped coins leave the state
untouched; otherwise the market cap goes to `advancing` on a strict
price rise, to `declining` on a strict fall, and always to `total`. -/
def sentStep (prev : List (String × Obs)) (s : SentState) (e : String × Obs) : SentState :=
  match parse3 prev e with
  | none => s
  | some t =>
    let s1 :=
      if t.2.1 < t.1 then { s with advancing := s.advancing + t.2.2 }
      else if t.1 < t.2.1 then { s with declining := s.declining + t.2.2 }
      else s
    { s1 with total := s1.total + t.2.2 }

/-- The accumulated sentiment totals over the two snapshots. -/
def sentTotals (store : List Obs) (now : Nat) : SentState :=
  (latestSnap store now).foldl
    (sentStep (latestSnap store (now - 7 * secPerDay))) ⟨0, 0, 0⟩

/-- The `bear_vs_bull_indicator` value: neutral 50 when the accumulated
total market cap is zero, else the advancing share in percent, rounded
to two decimals. -/
def sentimentValue (store : List Obs) (now : Nat) : ℚ :=
  if (sentTotals store now).total = 0 then round2 50
  else round2 ((sentTotals store now).advancing / (sentTotals store now).total * 100)

/-- The `/market-sentiment` endpoint (its body raises no exception). -/
def market_sentiment (store : List Obs) (now : Nat) : Except Http ℚ :=
  catchAll (.ok (sentimentValue store now))

/-- The parseable overlapping coins, as `(last_price, previous_price,
market_cap)` triples in latest-snapshot order: the coins that the
sentiment loop does not skip. -/
def overlapParsed (prev latest : List (String × Obs)) : List (ℚ × ℚ × ℚ) :=
  latest.filterMap (parse3 prev)

/-- Sum of the market caps of the advancing triples. -/
def advSum (ts : List (ℚ × ℚ × ℚ)) : ℚ :=
  ((ts.filter (fun t => decide (t.2.1 < t.1))).map (fun t => t.2.2)).sum

/-- Sum of the market caps of the declining triples. -/
def decSum (ts : List (ℚ × ℚ × ℚ)) : ℚ :=
  ((ts.filter (fun t => decide (t.1 < t.2.1))).map (fun t => t.2.2)).sum

/-- Sum of the market caps of all parseable overlapping triples. -/
def totSum (ts : List (ℚ × ℚ × ℚ)) : ℚ :=
  (ts.map (fun t => t.2.2)).sum

/-! ### Properties of the stable sort -/

theorem insertLe_perm (le : α → α → Bool) (x : α) (l : List α) :
    List.Perm (insertLe le x l) (x :: l) := by
  induction l with
  | nil => exact List.Perm.refl _
  | cons y ys ih =>
    simp only [insertLe]
    by_cases h : le x y
    · simp only [h, if_pos]
      exact List.Perm.refl _
    · simp only [h, if_neg, Bool.false_eq_true, not_false_iff]
      exact (ih.cons y).trans (List.Perm.swap x y ys)

theorem sortLe_perm (le : α → α → Bool) (l : List α) : List.Perm (sortLe le l) l := by
  induction l with
  | nil => exact List.Perm.refl _
  | cons x xs ih => exact (insertLe_perm le x (sortLe le xs)).trans (ih.cons x)

theorem mem_insertLe {le : α → α → Bool} {x y : α} {l : List α} :
    y ∈ insertLe le x l ↔ y = x ∨ y ∈ l := by
  rw [(insertLe_perm le x l).mem_iff, List.mem_cons]

theorem mem_sortLe {le : α → α → Bool} {x : α} {l : List α} :
    x ∈ sortLe le l ↔ x ∈ l := (sortLe_perm le l).mem_iff

theorem pairwise_insertLe {le : α → α → Bool}
    (htot : ∀ a b, le a b = true ∨ le b a = true)
    (htrans : ∀ a b c, le a b = true → le b c = true → le a c = true)
    (x : α) {l : List α}
    (h : l.Pairwise (fun a b => le a b = true)) :
    (insertLe le x l).Pairwise (fun a b => le a b = true) := by
  induction l with
  | nil => simp [insertLe]
  | cons y ys ih =>
    rcases List.pairwise_cons.mp h with ⟨hy, hys⟩
    simp only [insertLe]
    by_cases hxy : le x y
    · rw [if_pos hxy]
      refine List.Pairwise.cons (fun z hz => ?_) h
      rcases List.mem_cons.mp hz with rfl | hz
      · exact hxy
      · exact htrans x y z hxy (hy z hz)
    · simp only [hxy, if_neg, Bool.false_eq_true, not_false_iff]
      refine List.Pairwise.cons (fun z hz => ?_) (ih hys)
      rcases mem_insertLe.mp hz with rfl | hz
      · rcases htot z y with h1 | h1
        · exact absurd h1 hxy
        · exact h1
      · exact hy z hz

theorem pairwise_sortLe {le : α → α → Bool}
    (htot : ∀ a b, le a b = true ∨ le b a = true)
    (htrans : ∀ a b c, le a b = true → le b c = true → le a c = true)
    (l : List α) :
    (sortLe le l).Pairwise (fun a b => le a b = true) := by
  induction l with
  | nil => simp [sortLe]
  | cons x xs ih => exact pairwise_insertLe htot htrans x ih

theorem filter_insertLe {le : α → α → Bool} {p : α → Bool}
    (hp : ∀ a b, p a = true → p b = true → le a b = true) (x : α) (l : List α) :
    (insertLe le x l).filter p = if p x then x :: l.filter p else l.filter p := by
  induction l with
  | nil => by_cases hx : p x <;> simp [insertLe, List.filter_cons, hx]
  | cons y ys ih =>
    simp only [insertLe]
    by_cases hxy : le x y
    · by_cases hx : p x <;> simp [hxy, List.filter_cons, hx]
    · by_cases hpy : p y
      · have hpx : p x = false := by
          cases hx : p x
          · rfl
          · exact absurd (hp x y hx hpy) hxy
        simp [hxy, List.filter_cons, hpy, ih, hpx]
      · simp [hxy, List.filter_cons, hpy, ih]

/-- Stability of `sortLe`: elements that tie under the sort comparison
come out in input order (the sublist they form is unchanged). -/
theorem filter_sortLe {le : α → α → Bool} {p : α → Bool}
    (hp : ∀ a b, p a = true → p b = true → le a b = true) (l : List α) :
    (sortLe le l).filter p = l.filter p := by
  induction l with
  | nil => simp [sortLe]
  | cons x xs ih =>
    simp [sortLe, filter_insertLe hp, List.filter_cons, ih]

/-! ### Properties of Mongo grouping -/

theorem firstKeys_aux_mem {key : α → κ} [DecidableEq κ] (l : List α) (acc : List κ) (k : κ) :
    k ∈ l.foldl (fun ks o => if key o ∈ ks then ks else ks ++ [key o]) acc ↔
      k ∈ acc ∨ k ∈ l.map key := by
  induction l generalizing acc with
  | nil => simp
  | cons x xs ih =>
    simp only [List.foldl_cons, List.map_cons, List.mem_cons]
    by_cases hx : key x ∈ acc
    · rw [if_pos hx, ih]
      constructor
      · rintro (h | h)
        · exact Or.inl h
        · exact Or.inr (Or.inr h)
      · rintro (h | rfl | h)
        · exact Or.inl h
        · exact Or.inl hx
        · exact Or.inr h
    · rw [if_neg hx, ih]
      simp only [List.mem_append, List.mem_singleton]
      tauto

theorem mem_firstKeys {key : α → κ} [DecidableEq κ] {l : List α} {k : κ} :
    k ∈ firstKeys key l ↔ k ∈ l.map key := by
  rw [firstKeys, firstKeys_aux_mem]
  simp

theorem firstKeys_aux_nodup {key : α → κ} [DecidableEq κ] (l : List α) (acc : List κ)
    (h : acc.Nodup) :
    (l.foldl (fun ks o => if key o ∈ ks then ks else ks ++ [key o]) acc).Nodup := by
  induction l generalizing acc with
  | nil => exact h
  | cons x xs ih =>
    simp only [List.foldl_cons]
    by_cases hx : key x ∈ acc
    · rw [if_pos hx]
      exact ih acc h
    · rw [if_neg hx]
      refine ih _ ?_
      simp [List.nodup_append, h, hx]

theorem nodup_firstKeys (key : α → κ) [DecidableEq κ] (l : List α) :
    (firstKeys key l).Nodup :=
  firstKeys_aux_nodup l [] List.nodup_nil

theorem map_key_filterMap_find (key : α → κ) [DecidableEq κ] (l : List α) (ks : List κ)
    (hmem : ∀ k ∈ ks, ∃ o ∈ l, key o = k) :
    (ks.filterMap (fun k => l.find? (fun o => key o = k))).map key = ks := by
  induction ks with
  | nil => simp
  | cons k ks ih =>
    have hfind : ∃ o, l.find? (fun o => key o = k) = some o := by
      rcases hmem k (List.mem_cons_self k ks) with ⟨o, ho, rfl⟩
      have hs : (l.find? (fun x => key x = key o)).isSome := by
        rw [List.find?_isSome]
        exact ⟨o, ho, by simp⟩
      exact Option.isSome_iff_exists.mp hs
    rcases hfind with ⟨o, ho⟩
    have hko : key o = k := by
      have := List.find?_some ho
      simpa using this
    simp only [List.filterMap_cons, ho, List.map_cons, hko]
    rw [ih (fun k2 hk2 => hmem k2 (List.mem_cons_of_mem k hk2))]

theorem groupFirst_map_key (key : α → κ) [DecidableEq κ] (l : List α) :
    (groupFirst key l).map key = firstKeys key l := by
  rw [groupFirst]
  refine map_key_filterMap_find key l (firstKeys key l) (fun k hk => ?_)
  rw [mem_firstKeys] at hk
  rcases List.mem_map.mp hk with ⟨o, ho, rfl⟩
  exact ⟨o, ho, rfl⟩

theorem nodup_groupFirst_keys (key : α → κ) [DecidableEq κ] (l : List α) :
    ((groupFirst key l).map key).Nodup := by
  rw [groupFirst_map_key]
  exact nodup_firstKeys key l

theorem length_groupFirst (key : α → κ) [DecidableEq κ] (l : List α) :
    (groupFirst key l).length = (firstKeys key l).length := by
  rw [← groupFirst_map_key key l, List.length_map]

theorem mem_of_mem_groupFirst {key : α → κ} [DecidableEq κ] {l : List α} {o : α}
    (h : o ∈ groupFirst key l) : o ∈ l := by
  rw [groupFirst] at h
  rcases List.mem_filterMap.mp h with ⟨k, _, hfind⟩
  exact List.mem_of_find?_eq_some hfind

/-- Two lists without duplicates and with the same members have the same
length. -/
theorem length_eq_of_nodup_mem_iff [DecidableEq α] {l1 l2 : List α}
    (h1 : l1.Nodup) (h2 : l2.Nodup) (h : ∀ a, a ∈ l1 ↔ a ∈ l2) :
    l1.length = l2.length :=
  ((List.perm_ext_iff_of_nodup h1 h2).mpr h).length_eq

/-! ### Bounds for round-half-even -/

theorem roundHalfEven_ge_floor (x : ℚ) : Int.floor x ≤ roundHalfEven x := by
  rw [roundHalfEven]
  split
  · exact le_refl _
  · split
    · exact le_of_lt (lt_add_one _)
    · split
      · exact le_refl _
      · exact le_of_lt (lt_add_one _)

theorem roundHalfEven_le_ceil (x : ℚ) : roundHalfEven x ≤ Int.ceil x := by
  rw [roundHalfEven]
  have hfc : Int.floor x ≤ Int.ceil x := Int.floor_le_ceil x
  split
  · exact hfc
  · rename_i h1
    have hlt : (Int.floor x : ℚ) < x := by
      have : (0 : ℚ) < x - (Int.floor x : ℚ) := by linarith [not_lt.mp h1, half_pos (zero_lt_one (α := ℚ))]
      linarith
    have hceil : Int.floor x + 1 ≤ Int.ceil x := by
      have := Int.lt_ceil.mpr hlt
      omega
    split
    · exact hceil
    · split
      · exact hfc
      · exact hceil

theorem roundHalfEven_nonneg {x : ℚ} (h : 0 ≤ x) : 0 ≤ roundHalfEven x := by
  have := roundHalfEven_ge_floor x
  have h0 : (0 : ℤ) ≤ Int.floor x := by
    rw [Int.le_floor]
    exact_mod_cast h
  omega

theorem roundHalfEven_le_of_le {x : ℚ} {n : ℤ} (h : x ≤ (n : ℚ)) : roundHalfEven x ≤ n := by
  have h1 := roundHalfEven_le_ceil x
  have h2 : Int.ceil x ≤ n := Int.ceil_le.mpr h
  omega

theorem round2_nonneg {x : ℚ} (h : 0 ≤ x) : 0 ≤ round2 x := by
  rw [round2]
  have : (0 : ℤ) ≤ roundHalfEven (x * 100) := roundHalfEven_nonneg (by positivity)
  positivity

theorem round2_le_100 {x : ℚ} (h : x ≤ 100) : round2 x ≤ 100 := by
  rw [round2]
  have h1 : roundHalfEven (x * 100) ≤ (10000 : ℤ) := by
    apply roundHalfEven_le_of_le
    push_cast
    linarith
  have h2 : (roundHalfEven (x * 100) : ℚ) ≤ 10000 := by exact_mod_cast h1
  linarith

/-! ### Sum helpers -/

theorem sum_sublist_le {l1 l2 : List ℚ} (h : l1.Sublist l2) (hn : ∀ x ∈ l2, 0 ≤ x) :
    l1.sum ≤ l2.sum := by
  induction h with
  | slnil => exact le_refl _
  | cons a h ih =>
    rename_i t1 t2
    have ha : 0 ≤ a := hn a (List.mem_cons_self _ _)
    have : ∀ x ∈ t2, 0 ≤ x := fun x hx => hn x (List.mem_cons_of_mem _ hx)
    simp only [List.sum_cons]
    linarith [ih this]
  | cons₂ a h ih =>
    rename_i t1 t2
    have : ∀ x ∈ t2, 0 ≤ x := fun x hx => hn x (List.mem_cons_of_mem _ hx)
    simp only [List.sum_cons]
    linarith [ih this]

theorem sum_take_le {l : List ℚ} (n : Nat) (hn : ∀ x ∈ l, 0 ≤ x) :
    (l.take n).sum ≤ l.sum :=
  sum_sublist_le (List.take_sublist n l) hn

/-! ### Properties of the per-coin history dictionary -/

/-- The history list stored under coin `c` (empty when absent). -/
def histLookup (c : String) (m : List (String × List Point)) : List Point :=
  ((m.find? (fun e => e.1 = c)).map Prod.snd).getD []

theorem histLookup_cons_of_ne {e : String × List Point} {c : String}
    (h : ¬ e.1 = c) (rest : List (String × List Point)) :
    histLookup c (e :: rest) = histLookup c rest := by
  have hb : ¬ ((fun e : String × List Point => decide (e.1 = c)) e = true) := by simpa using h
  unfold histLookup
  rw [List.find?_cons_of_neg rest hb]

theorem histLookup_addPoint (c c2 : String) (pt : Point) (m : List (String × List Point)) :
    histLookup c (addPoint c2 pt m) =
      if c2 = c then histLookup c m ++ [pt] else histLookup c m := by
  induction m with
  | nil =>
    by_cases h : c2 = c <;> simp [addPoint, histLookup, List.find?, h]
  | cons e rest ih =>
    simp only [addPoint]
    by_cases he : e.1 = c2
    · rw [if_pos he]
      by_cases h : c2 = c
      · subst h
        simp [histLookup, List.find?, he]
      · have he2 : (e.1 = c) = False := by
          simp [he, h]
        simp [histLookup, List.find?, he2, h]
    · rw [if_neg he]
      by_cases hec : e.1 = c
      · have : ¬ c2 = c := fun h => he (hec.trans h.symm)
        simp [histLookup, List.find?, hec, this]
      · rw [histLookup_cons_of_ne hec, histLookup_cons_of_ne hec, ih]

theorem keys_addPoint (c2 : String) (pt : Point) (m : List (String × List Point)) :
    (addPoint c2 pt m).map Prod.fst =
      if c2 ∈ m.map Prod.fst then m.map Prod.fst else m.map Prod.fst ++ [c2] := by
  induction m with
  | nil => simp [addPoint]
  | cons e rest ih =>
    simp only [addPoint]
    by_cases he : e.1 = c2
    · rw [if_pos he]
      simp [he]
    · rw [if_neg he]
      have : ¬ c2 = e.1 := fun h => he h.symm
      simp only [List.map_cons, List.mem_cons, this, false_or]
      rw [ih]
      by_cases hmem : c2 ∈ rest.map Prod.fst <;> simp [hmem]

theorem nodup_keys_addPoint (c2 : String) (pt : Point) (m : List (String × List Point))
    (h : (m.map Prod.fst).Nodup) : ((addPoint c2 pt m).map Prod.fst).Nodup := by
  rw [keys_addPoint]
  by_cases hmem : c2 ∈ m.map Prod.fst
  · rw [if_pos hmem]
    exact h
  · rw [if_neg hmem]
    simp [List.nodup_append, h, hmem]

theorem histFold_keys_nodup (l : List Obs) (m : List (String × List Point))
    (h : (m.map Prod.fst).Nodup) :
    ((l.foldl (fun m o => addPoint o.coin_id ⟨o.date, normalizeNum o.price⟩ m) m).map
      Prod.fst).Nodup := by
  induction l generalizing m with
  | nil => exact h
  | cons o os ih =>
    simp only [List.foldl_cons]
    exact ih _ (nodup_keys_addPoint _ _ m h)

theorem nodup_hist_keys (store : List Obs) (now : Nat) :
    ((coinPriceHistory store now).map Prod.fst).Nodup :=
  histFold_keys_nodup _ [] List.nodup_nil

theorem histLookup_fold (l : List Obs) (m : List (String × List Point)) (c : String) :
    histLookup c (l.foldl (fun m o => addPoint o.coin_id ⟨o.date, normalizeNum o.price⟩ m) m) =
      histLookup c m ++
        (l.filter (fun o => o.coin_id = c)).map (fun o => (⟨o.date, normalizeNum o.price⟩ : Point)) := by
  induction l generalizing m with
  | nil => simp
  | cons o os ih =>
    simp only [List.foldl_cons, List.filter_cons]
    by_cases hc : o.coin_id = c
    · rw [ih, histLookup_addPoint, if_pos hc]
      simp [hc]
    · rw [ih, histLookup_addPoint, if_neg hc]
      simp [hc]

/-- The history recorded for a coin is exactly the projection of the
window documents of that coin, in pipeline order. -/
theorem coinPriceHistory_lookup (store : List Obs) (now : Nat) (c : String) :
    histLookup c (coinPriceHistory store now) =
      ((windowDocs store now).filter (fun o => o.coin_id = c)).map
        (fun o => (⟨o.date, normalizeNum o.price⟩ : Point)) := by
  rw [coinPriceHistory, histLookup_fold]
  simp [histLookup]

theorem mem_assoc_eq_lookup {m : List (String × List Point)} {c : String} {ps : List Point}
    (hnd : (m.map Prod.fst).Nodup) (h : (c, ps) ∈ m) : histLookup c m = ps := by
  induction m with
  | nil => simp at h
  | cons e rest ih =>
    rcases List.mem_cons.mp h with rfl | h2
    · simp [histLookup, List.find?]
    · have hc : e.1 ≠ c := by
        intro hec
        have : c ∈ rest.map Prod.fst := List.mem_map.mpr ⟨(c, ps), h2, rfl⟩
        rw [List.map_cons, List.nodup_cons, hec] at hnd
        exact hnd.1 this
      rw [histLookup_cons_of_ne hc]
      exact ih (List.nodup_cons.mp (by simpa using hnd)).2 h2

/-! ### One observation per coin per day in the movers window -/

theorem nodup_snd_of_nodup_const_fst {c : String} {l : List (String × Nat)}
    (hnd : l.Nodup) (hfst : ∀ p ∈ l, p.1 = c) : (l.map Prod.snd).Nodup := by
  induction l with
  | nil => simp
  | cons e rest ih =>
    rcases List.nodup_cons.mp hnd with ⟨hni, hnd2⟩
    simp only [List.map_cons, List.nodup_cons]
    refine ⟨fun hmem => ?_, ih hnd2 (fun p hp => hfst p (List.mem_cons_of_mem _ hp))⟩
    rcases List.mem_map.mp hmem with ⟨p, hp, hsnd⟩
    have h1 : p.1 = c := hfst p (List.mem_cons_of_mem _ hp)
    have h2 : e.1 = c := hfst e (List.mem_cons_self _ _)
    have : e = p := by
      rcases e with ⟨e1, e2⟩
      rcases p with ⟨p1, p2⟩
      simp only [Prod.mk.injEq]
      exact ⟨h2.trans h1.symm, hsnd.symm⟩
    exact hni (this ▸ hp)

theorem nodup_windowDocs_keys (store : List Obs) (now : Nat) :
    ((windowDocs store now).map (fun o => (o.coin_id, dayOf o.date))).Nodup := by
  rw [windowDocs]
  have h1 := nodup_groupFirst_keys (fun o : Obs => (o.coin_id, dayOf o.date))
    (sortLe (fun a b => decide (a.date ≤ b.date))
      (store.filter (fun o => decide (now - 7 * secPerDay ≤ o.date) && decide (o.date ≤ now))))
  have hperm := (sortLe_perm (fun a b =>
    decide (a.coin_id < b.coin_id) ||
      (decide (a.coin_id = b.coin_id) && decide (a.date ≤ b.date)))
    (groupFirst (fun o : Obs => (o.coin_id, dayOf o.date))
      (sortLe (fun a b => decide (a.date ≤ b.date))
        (store.filter (fun o => decide (now - 7 * secPerDay ≤ o.date) && decide (o.date ≤ now))))))
  exact ((hperm.map (fun o : Obs => (o.coin_id, dayOf o.date))).nodup_iff).mpr h1

/-- Per-coin, per-day dedup of the movers pipeline: the days of the
window documents of one coin are pairwise distinct. -/
theorem nodup_days_filter_coin (store : List Obs) (now : Nat) (c : String) :
    (((windowDocs store now).filter (fun o => o.coin_id = c)).map
      (fun o => dayOf o.date)).Nodup := by
  have hkeys := nodup_windowDocs_keys store now
  have hsub : ((windowDocs store now).filter (fun o => o.coin_id = c)).Sublist
      (windowDocs store now) := List.filter_sublist _
  have hnd : (((windowDocs store now).filter (fun o => o.coin_id = c)).map
      (fun o => (o.coin_id, dayOf o.date))).Nodup :=
    (hsub.map (fun o => (o.coin_id, dayOf o.date))).nodup hkeys
  have hfst : ∀ p ∈ ((windowDocs store now).filter (fun o => o.coin_id = c)).map
      (fun o => (o.coin_id, dayOf o.date)), p.1 = c := by
    intro p hp
    rcases List.mem_map.mp hp with ⟨o, ho, rfl⟩
    have := (List.mem_filter.mp ho).2
    simpa using this
  have := nodup_snd_of_nodup_const_fst hnd hfst
  simpa [List.map_map, Function.comp] using this

/-! ### Characterization of the sentiment accumulation -/

theorem sentStep_none {prev : List (String × Obs)} {s : SentState} {e : String × Obs}
    (h : parse3 prev e = none) : sentStep prev s e = s := by
  rw [sentStep, h]

theorem advSum_cons (t : ℚ × ℚ × ℚ) (ts : List (ℚ × ℚ × ℚ)) :
    advSum (t :: ts) = (if t.2.1 < t.1 then t.2.2 else 0) + advSum ts := by
  rw [advSum, advSum, List.filter_cons]
  by_cases h : t.2.1 < t.1 <;> simp [h]

theorem decSum_cons (t : ℚ × ℚ × ℚ) (ts : List (ℚ × ℚ × ℚ)) :
    decSum (t :: ts) = (if t.1 < t.2.1 then t.2.2 else 0) + decSum ts := by
  rw [decSum, decSum, List.filter_cons]
  by_cases h : t.1 < t.2.1 <;> simp [h]

theorem totSum_cons (t : ℚ × ℚ × ℚ) (ts : List (ℚ × ℚ × ℚ)) :
    totSum (t :: ts) = t.2.2 + totSum ts := by
  rw [totSum, totSum, List.map_cons, List.sum_cons]

theorem sentStep_some {prev : List (String × Obs)} {s : SentState} {e : String × Obs}
    {t : ℚ × ℚ × ℚ} (h : parse3 prev e = some t) :
    sentStep prev s e =
      ⟨s.advancing + (if t.2.1 < t.1 then t.2.2 else 0),
       s.declining + (if t.1 < t.2.1 then t.2.2 else 0),
       s.total + t.2.2⟩ := by
  simp only [sentStep, h]
  rcases lt_trichotomy t.2.1 t.1 with h1 | h1 | h1
  · simp [if_pos h1, if_neg (not_lt_of_lt h1)]
  · have h2 : ¬ t.2.1 < t.1 := by rw [h1]; exact lt_irrefl _
    have h3 : ¬ t.1 < t.2.1 := by rw [h1]; exact lt_irrefl _
    simp [if_neg h2, if_neg h3]
  · simp [if_neg (lt_asymm h1), if_pos h1]

theorem sentFold_eq (prev : List (String × Obs)) (l : List (String × Obs)) (s : SentState) :
    l.foldl (sentStep prev) s =
      ⟨s.advancing + advSum (overlapParsed prev l),
       s.declining + decSum (overlapParsed prev l),
       s.total + totSum (overlapParsed prev l)⟩ := by
  induction l generalizing s with
  | nil => simp [overlapParsed, advSum, decSum, totSum]
  | cons e l ih =>
    rw [List.foldl_cons, ih]
    cases hp : parse3 prev e with
    | none =>
      rw [sentStep_none hp]
      simp only [overlapParsed, List.filterMap_cons, hp]
    | some t =>
      have hOP : overlapParsed prev (e :: l) = t :: overlapParsed prev l := by
        simp only [overlapParsed, List.filterMap_cons, hp]
      rw [hOP, advSum_cons, decSum_cons, totSum_cons, sentStep_some hp]
      simp only [SentState.mk.injEq]
      refine ⟨by ring, by ring, by ring⟩

/-- The sentiment totals are the filtered market-cap sums over the
parseable overlapping coins. -/
theorem sentTotals_eq (store : List Obs) (now : Nat) :
    sentTotals store now =
      ⟨advSum (overlapParsed (latestSnap store (now - 7 * secPerDay)) (latestSnap store now)),
       decSum (overlapParsed (latestSnap store (now - 7 * secPerDay)) (latestSnap store now)),
       totSum (overlapParsed (latestSnap store (now - 7 * secPerDay)) (latestSnap store now))⟩ := by
  rw [sentTotals, sentFold_eq]
  simp

/-! ### Concrete stores used by counterexamples and witnesses -/

/-- The timestamp of midnight of a reference day `D`. -/
def dayD : Nat := 20000 * 86400

/-- A store holding two raw observations of the same coin on the same
calendar day, 100 traded volume each (allowed by the data model: the
historic-data ETL inserts without deduplication). -/
def dupDayStore : List Obs :=
  [⟨"pepe", dayD, .num 1, .num 10, .num 100⟩,
   ⟨"pepe", dayD + 3600, .num 1, .num 10, .num 100⟩]

/-- The end-to-end scenario of spec §8: coin `A` at `(D-6, 100, 1000)`
and `(D, 150, 1500)`, coin `B` at `(D-6, 50, 500)` and `(D, 40, 400)`. -/
def spec8Store : List Obs :=
  [⟨"A", dayD - 6 * 86400, .num 100, .num 1000, .null⟩,
   ⟨"A", dayD, .num 150, .num 1500, .null⟩,
   ⟨"B", dayD - 6 * 86400, .num 50, .num 500, .null⟩,
   ⟨"B", dayD, .num 40, .num 400, .null⟩]

/-- The §8 scenario with the early observations moved to `D-7`, so that
they are inside the 7-day-earlier snapshot. -/
def overlapStore : List Obs :=
  [⟨"A", dayD - 7 * 86400, .num 100, .num 1000, .null⟩,
   ⟨"A", dayD, .num 150, .num 1500, .null⟩,
   ⟨"B", dayD - 7 * 86400, .num 50, .num 500, .null⟩,
   ⟨"B", dayD, .num 40, .num 400, .null⟩]

/-- An advancing coin with cap 100 and a declining coin whose stored
market cap is the string `"-50"`, which normalizes to `-50`. -/
def negCapSentStore : List Obs :=
  [⟨"up", dayD - 7 * 86400, .num 1, .num 100, .null⟩,
   ⟨"up", dayD, .num 2, .num 100, .null⟩,
   ⟨"dn", dayD - 7 * 86400, .num 2, .num 1, .null⟩,
   ⟨"dn", dayD, .num 1, .str "-50", .null⟩]

/-- Eleven coins: ten with market cap 10 and one with market cap `-5`. -/
def negCapTopStore : List Obs :=
  (List.range 10).map (fun i => (⟨toString i, dayD, .num 1, .num 10, .null⟩ : Obs)) ++
  [⟨"neg", dayD, .num 1, .num (-5), .null⟩]

/-- One coin with a price doubling between two days. -/
def twoDayStore : List Obs :=
  [⟨"a", dayD, .num 1, .num 1, .num 1⟩,
   ⟨"a", dayD + 86400, .num 2, .num 1, .num 1⟩]

/-- Coin `aa` with two window points, coin `bb` with a single point. -/
def moversStore : List Obs :=
  [⟨"aa", dayD, .num 100, .num 1, .num 1⟩,
   ⟨"aa", dayD + 86400, .num 150, .num 1, .num 1⟩,
   ⟨"bb", dayD, .num 7, .num 1, .num 1⟩]

/-! ### Claim theorems -/

/-- C1: per the spec, `GetTopCoins()` on an empty store must surface the
NoData (404) signal, distinguishable from the generic server error.  The
code raises `HTTPException(404, "No meme coins found in the database.")`
inside the `try` block, but the blanket `except Exception` catches that
very exception and re-raises it as a 500, so the caller receives the
generic server-error outcome instead of NoData.  This theorem evaluates
the endpoint at the failing input (the empty store). -/
theorem claim1_empty_store_yields_500_not_404 :
    top_coins [] =
      .error ⟨500, "An error occurred: 404: No meme coins found in the database."⟩ := by
  with_unfolding_all rfl

/-- C7: the Numeric Normalizer is total (it is a Lean function): numeric
input is returned unchanged, textual input is stripped to digits,
periods and minus signs and then parsed with fallback `0.0`, and the
four example values of spec §8 evaluate as stated. -/
theorem claim7_normalizer_contract :
    (∀ x : ℚ, normalizeNum (.num x) = x) ∧
    (∀ s : String, normalizeNum (.str s) = (pyFloatOfString (stripNonNumeric s)).getD 0) ∧
    normalizeNum (.str "1,234.56") = 1234.56 ∧
    normalizeNum (.str "") = 0 ∧
    normalizeNum .null = 0 ∧
    normalizeNum (.num 42) = 42 :=
  ⟨fun _ => rfl, fun _ => rfl, by with_unfolding_all rfl, by with_unfolding_all rfl,
    rfl, rfl⟩

/-- C2 counterexample: `GetTradedVolume` does not deduplicate per coin
and day: on a store with two same-day observations of one coin carrying
volume 100 each, the per-day total is 200, i.e. the coin's volume is
counted twice in one calendar day. -/
theorem claim2_traded_volume_counts_coin_twice :
    traded_volume none none dupDayStore (dayD + 2 * 86400) = .ok [(20000, 200)] ∧
    (100 : ℚ) < 200 := by
  constructor
  · with_unfolding_all rfl
  · norm_num

/-- C3 counterexample: with eleven coins, ten of market cap 10 and one
of market cap `-5`, the total market cap is 95 while the ten returned
top coins sum to 100, so `sum(top_n) <= total_market_cap` fails. -/
theorem claim3_negative_cap_breaks_bound :
    (top_coins negCapTopStore).map TopCoinsResponse.total_market_cap = .ok 95 ∧
    (top_coins negCapTopStore).map
      (fun r => (r.top_10_coins.map CoinData.market_cap).sum) = .ok 100 ∧
    (95 : ℚ) < 100 := by
  refine ⟨?_, ?_, by norm_num⟩
  · with_unfolding_all rfl
  · with_unfolding_all rfl

/-- C4 counterexample: with an advancing coin of cap 100 and a declining
coin whose cap normalizes to `-50`, the accumulated total is 50 and the
indicator is `100/50*100 = 200`, outside `[0,100]`. -/
theorem claim4_indicator_out_of_range :
    sentimentValue negCapSentStore dayD = 200 ∧ (100 : ℚ) < 200 := by
  constructor
  · with_unfolding_all rfl
  · norm_num

/-- C6 counterexample: in the §8 scenario the previous-snapshot cutoff
is `D-7`, and the only earlier observations are at `D-6`, which postdate
the cutoff; no coin overlaps the two snapshots, `total_market_cap` is 0,
and the indicator is the neutral 50.0 — not the claimed 78.95. -/
theorem claim6_scenario_returns_50 :
    sentimentValue spec8Store dayD = 50 ∧ (50 : ℚ) < 78.95 := by
  constructor
  · with_unfolding_all rfl
  · norm_num

/-- C9 counterexample: `get_top_movers` reads the clock, so two
invocations against the same unchanged store can differ: two days after
the data the window holds both points and the gainer is returned; twenty
days later the window is empty and the (wrapped) 404 path is taken. -/
theorem claim9_clock_dependence :
    get_top_movers true twoDayStore (dayD + 2 * 86400) =
      .ok [⟨"a", 100, [⟨dayD, 1⟩, ⟨dayD + 86400, 2⟩]⟩] ∧
    get_top_movers true twoDayStore (dayD + 20 * 86400) =
      .error ⟨500, "An error occurred: 404: No price data found for the last 7 days."⟩ := by
  constructor
  · with_unfolding_all rfl
  · with_unfolding_all rfl

/-! ### Ranking helpers -/

theorem capDesc_total (a b : CoinData) : capDesc a b = true ∨ capDesc b a = true := by
  rw [capDesc, capDesc]
  rcases le_total b.market_cap a.market_cap with h | h
  · exact Or.inl (decide_eq_true h)
  · exact Or.inr (decide_eq_true h)

theorem capDesc_trans (a b c : CoinData) (h1 : capDesc a b = true) (h2 : capDesc b c = true) :
    capDesc a c = true := by
  rw [capDesc] at *
  exact decide_eq_true (le_trans (of_decide_eq_true h2) (of_decide_eq_true h1))

/-- The number of distinct coin ids present in the store. -/
def distinctCoinCount (store : List Obs) : Nat := ((store.map Obs.coin_id).dedup).length

theorem length_topCoinsGroups (store : List Obs) :
    (topCoinsGroups store).length = distinctCoinCount store := by
  rw [topCoinsGroups, length_groupFirst, distinctCoinCount]
  refine length_eq_of_nodup_mem_iff (nodup_firstKeys _ _) (List.nodup_dedup _) (fun k => ?_)
  rw [mem_firstKeys, List.mem_dedup]
  exact ((sortLe_perm (fun a b => decide (b.date ≤ a.date)) store).map Obs.coin_id).mem_iff

/-- C8: the `top_market_cap` output (the code instantiates `n := 10`) is
sorted descending by normalized market cap, has length
`min n (distinct coin count)`, and the sort is stable: for every cap
value, the snapshots carrying that value appear in the sorted list in
their input order. -/
theorem claim8_ranking_contract (store : List Obs) (n : Nat) :
    List.Pairwise (fun a b : CoinData => b.market_cap ≤ a.market_cap)
      (topMarketCapRank n (processedSnapshots store)) ∧
    (topMarketCapRank n (processedSnapshots store)).length = min n (distinctCoinCount store) ∧
    (∀ c : ℚ, (sortLe capDesc (processedSnapshots store)).filter
        (fun x => decide (x.market_cap = c)) =
      (processedSnapshots store).filter (fun x => decide (x.market_cap = c))) := by
  refine ⟨?_, ?_, ?_⟩
  · have hsorted := pairwise_sortLe capDesc_total capDesc_trans (processedSnapshots store)
    have htake := List.Pairwise.sublist (List.take_sublist n _) hsorted
    exact htake.imp (fun h => of_decide_eq_true h)
  · rw [topMarketCapRank, List.length_take,
      (sortLe_perm capDesc (processedSnapshots store)).length_eq,
      processedSnapshots, List.length_map, length_topCoinsGroups]
  · intro c
    refine filter_sortLe (fun a b ha hb => ?_) _
    have h1 : a.market_cap = c := of_decide_eq_true ha
    have h2 : b.market_cap = c := of_decide_eq_true hb
    rw [capDesc, h1, h2]
    exact decide_eq_true (le_refl c)

/-- C3 amended: `total_market_cap` always equals the sum of the
normalized market caps of all coins of the latest snapshot, not only the
returned top 10 — unconditionally, also for stores with negative caps;
and, provided every normalized market cap is nonnegative (a negative
stored cap such as `"-5"` breaks it, see the counterexample), the
returned top-10 caps sum to at most `total_market_cap`. -/
theorem claim3_total_and_bound_amended (store : List Obs) (r : TopCoinsResponse)
    (h : top_coins store = .ok r) :
    r.total_market_cap = ((processedSnapshots store).map CoinData.market_cap).sum ∧
    ((∀ cd ∈ processedSnapshots store, 0 ≤ cd.market_cap) →
      (r.top_10_coins.map CoinData.market_cap).sum ≤ r.total_market_cap) := by
  rw [top_coins] at h
  by_cases hemp : (topCoinsGroups store).isEmpty
  · rw [if_pos hemp] at h
    exact absurd h (by simp [catchAll])
  · rw [if_neg hemp] at h
    simp only [catchAll] at h
    have hr : r = ⟨((processedSnapshots store).map CoinData.market_cap).sum,
        topMarketCapRank 10 (processedSnapshots store)⟩ := by
      cases h
      rfl
    subst hr
    refine ⟨rfl, fun hnn => ?_⟩
    have hmaptake : (topMarketCapRank 10 (processedSnapshots store)).map CoinData.market_cap =
        ((sortLe capDesc (processedSnapshots store)).map CoinData.market_cap).take 10 := by
      rw [topMarketCapRank, List.map_take]
    rw [hmaptake]
    have hsum : ((sortLe capDesc (processedSnapshots store)).map CoinData.market_cap).sum =
        ((processedSnapshots store).map CoinData.market_cap).sum :=
      ((sortLe_perm capDesc (processedSnapshots store)).map CoinData.market_cap).sum_eq
    rw [← hsum]
    refine sum_take_le 10 (fun x hx => ?_)
    rcases List.mem_map.mp hx with ⟨cd, hcd, rfl⟩
    exact hnn cd (mem_sortLe.mp hcd)

/-- C3 witness: the unconditional total on the negative-cap store, and
both parts on a single-coin store with nonnegative caps. -/
theorem claim3_witness :
    (95 : ℚ) = ((processedSnapshots negCapTopStore).map CoinData.market_cap).sum ∧
    (⟨2, [⟨"w", 1, 2⟩]⟩ : TopCoinsResponse).total_market_cap =
      ((processedSnapshots [⟨"w", dayD, .num 1, .num 2, .null⟩]).map CoinData.market_cap).sum ∧
    ((⟨2, [⟨"w", 1, 2⟩]⟩ : TopCoinsResponse).top_10_coins.map CoinData.market_cap).sum ≤
      (⟨2, [⟨"w", 1, 2⟩]⟩ : TopCoinsResponse).total_market_cap :=
  ⟨(claim3_total_and_bound_amended negCapTopStore
      ⟨95, topMarketCapRank 10 (processedSnapshots negCapTopStore)⟩
      (by with_unfolding_all rfl)).1,
   (claim3_total_and_bound_amended [⟨"w", dayD, .num 1, .num 2, .null⟩] ⟨2, [⟨"w", 1, 2⟩]⟩
      (by with_unfolding_all rfl)).1,
   (claim3_total_and_bound_amended [⟨"w", dayD, .num 1, .num 2, .null⟩] ⟨2, [⟨"w", 1, 2⟩]⟩
      (by with_unfolding_all rfl)).2
     (by
       intro cd hcd
       have hps : processedSnapshots [(⟨"w", dayD, .num 1, .num 2, .null⟩ : Obs)] =
           [⟨"w", 1, 2⟩] := by with_unfolding_all rfl
       rw [hps] at hcd
       rcases List.mem_singleton.mp hcd with rfl
       norm_num)⟩

/-! ### Sentiment range -/

theorem round2_fifty : round2 50 = 50 := by with_unfolding_all rfl

theorem advSum_nonneg {ts : List (ℚ × ℚ × ℚ)} (h : ∀ t ∈ ts, 0 ≤ t.2.2) :
    0 ≤ advSum ts := by
  rw [advSum]
  refine List.sum_nonneg (fun x hx => ?_)
  rcases List.mem_map.mp hx with ⟨t, ht, rfl⟩
  exact h t (List.mem_filter.mp ht).1

theorem totSum_nonneg {ts : List (ℚ × ℚ × ℚ)} (h : ∀ t ∈ ts, 0 ≤ t.2.2) :
    0 ≤ totSum ts := by
  rw [totSum]
  refine List.sum_nonneg (fun x hx => ?_)
  rcases List.mem_map.mp hx with ⟨t, ht, rfl⟩
  exact h t ht

theorem advSum_le_totSum {ts : List (ℚ × ℚ × ℚ)} (h : ∀ t ∈ ts, 0 ≤ t.2.2) :
    advSum ts ≤ totSum ts := by
  rw [advSum, totSum]
  refine sum_sublist_le (List.Sublist.map _ (List.filter_sublist _)) (fun x hx => ?_)
  rcases List.mem_map.mp hx with ⟨t, ht, rfl⟩
  exact h t ht

/-- C4 amended: unconditionally — also for stores with negative or
cancelling caps — the indicator is exactly 50 whenever the accumulated
`total_market_cap` computes to 0, e.g. when no coin overlaps the two
snapshots; and whenever every parsed market cap of an overlapping coin
is nonnegative (a negative stored cap breaks the bound, see the
counterexample), the indicator lies in `[0, 100]`. -/
theorem claim4_range_amended (store : List Obs) (now : Nat) :
    ((sentTotals store now).total = 0 → sentimentValue store now = 50) ∧
    ((∀ t ∈ overlapParsed (latestSnap store (now - 7 * secPerDay)) (latestSnap store now),
        0 ≤ t.2.2) →
      0 ≤ sentimentValue store now ∧ sentimentValue store now ≤ 100) := by
  have h50 : (sentTotals store now).total = 0 → sentimentValue store now = 50 := by
    intro h0
    rw [sentimentValue, if_pos h0, round2_fifty]
  refine ⟨h50, fun hnn => ?_⟩
  by_cases h0 : (sentTotals store now).total = 0
  · rw [h50 h0]
    exact ⟨by norm_num, by norm_num⟩
  · have hval : sentimentValue store now =
        round2 ((sentTotals store now).advancing / (sentTotals store now).total * 100) := by
      rw [sentimentValue, if_neg h0]
    have hst := sentTotals_eq store now
    have hadv : (sentTotals store now).advancing =
        advSum (overlapParsed (latestSnap store (now - 7 * secPerDay)) (latestSnap store now)) := by
      rw [hst]
    have htot : (sentTotals store now).total =
        totSum (overlapParsed (latestSnap store (now - 7 * secPerDay)) (latestSnap store now)) := by
      rw [hst]
    have hadv0 : 0 ≤ (sentTotals store now).advancing := by
      rw [hadv]
      exact advSum_nonneg hnn
    have htot0 : 0 < (sentTotals store now).total := by
      rcases lt_or_eq_of_le (htot ▸ totSum_nonneg hnn) with h | h
      · exact h
      · exact absurd h.symm h0
    have hle : (sentTotals store now).advancing ≤ (sentTotals store now).total := by
      rw [hadv, htot]
      exact advSum_le_totSum hnn
    have hratio0 : 0 ≤ (sentTotals store now).advancing / (sentTotals store now).total * 100 := by
      positivity
    have hratio1 : (sentTotals store now).advancing / (sentTotals store now).total * 100 ≤ 100 := by
      have : (sentTotals store now).advancing / (sentTotals store now).total ≤ 1 :=
        (div_le_one htot0).mpr hle
      linarith
    refine ⟨?_, ?_⟩
    · rw [hval]
      exact round2_nonneg hratio0
    · rw [hval]
      exact round2_le_100 hratio1

/-- C4 witness: on the §8 store the total computes to 0 and the
indicator is exactly 50; on a store whose overlapping coins all carry
nonnegative caps, the indicator is inside the interval. -/
theorem claim4_witness :
    sentimentValue spec8Store dayD = 50 ∧
    (0 ≤ sentimentValue overlapStore dayD ∧ sentimentValue overlapStore dayD ≤ 100) :=
  ⟨(claim4_range_amended spec8Store dayD).1 (by with_unfolding_all rfl),
   (claim4_range_amended overlapStore dayD).2
    (by
      have hop : overlapParsed (latestSnap overlapStore (dayD - 7 * secPerDay))
          (latestSnap overlapStore dayD) = [(150, 100, 1500), (40, 50, 400)] := by
        with_unfolding_all rfl
      rw [hop]
      intro t ht
      rcases List.mem_cons.mp ht with rfl | ht
      · norm_num
      · rcases List.mem_singleton.mp ht with rfl
        norm_num)⟩

/-- C6 amended: the accumulation is exactly as claimed — for every coin
present in both snapshots with parseable fields, its market cap is
summed into `advancing_weighted` iff its latest price strictly exceeds
its previous price, into `declining_weighted` iff strictly below (equal
prices contribute to neither), and into `total_market_cap` always;
skipped coins contribute nothing; and the indicator is
`advancing / total * 100` (rounded to 2 decimals) whenever the total is
nonzero.  However, in the §8 two-coin scenario the `D-6` observations
postdate the `D-7` cutoff, so no coin overlaps the snapshots and the
endpoint returns the neutral 50.0, not 78.95. -/
theorem claim6_accumulation_amended (store : List Obs) (now : Nat) :
    (sentTotals store now).advancing =
      advSum (overlapParsed (latestSnap store (now - 7 * secPerDay)) (latestSnap store now)) ∧
    (sentTotals store now).declining =
      decSum (overlapParsed (latestSnap store (now - 7 * secPerDay)) (latestSnap store now)) ∧
    (sentTotals store now).total =
      totSum (overlapParsed (latestSnap store (now - 7 * secPerDay)) (latestSnap store now)) ∧
    ((sentTotals store now).total ≠ 0 →
      sentimentValue store now =
        round2 ((sentTotals store now).advancing / (sentTotals store now).total * 100)) ∧
    sentimentValue spec8Store dayD = 50 := by
  have hst := sentTotals_eq store now
  refine ⟨by rw [hst], by rw [hst], by rw [hst], fun h0 => ?_, by with_unfolding_all rfl⟩
  rw [sentimentValue, if_neg h0]

/-- C6 witness: on the overlapping variant of the §8 store the total is
nonzero and the indicator equals the weighted advancing share —
`round2 (1500 / 1900 * 100) = 78.95`. -/
theorem claim6_witness :
    sentimentValue overlapStore dayD =
      round2 ((sentTotals overlapStore dayD).advancing /
        (sentTotals overlapStore dayD).total * 100) :=
  (claim6_accumulation_amended overlapStore dayD).2.2.2.1
    (by
      have h : (sentTotals overlapStore dayD).total = 1900 := by with_unfolding_all rfl
      rw [h]
      norm_num)

/-- C2 amended: `GetTopMovers` does deduplicate to at most one
observation per coin per calendar day — the days of every coin's window
history are pairwise distinct — but `GetTradedVolume` does not: each
per-day total is the sum of the numeric `total_volume` of every raw
observation of that day, one contribution per stored observation (see
the counterexample for a coin counted twice in one day). -/
theorem claim2_dedup_amended (store : List Obs) (now : Nat) (startP endP : Option Nat) :
    (∀ c ps, (c, ps) ∈ coinPriceHistory store now →
      (ps.map (fun p => dayOf p.date)).Nodup) ∧
    (∀ d v, (d, v) ∈ tradedSeries startP endP store now →
      v = (((tradedDocs startP endP store now).filter (fun o => dayOf o.date = d)).map
        (fun o => numOr0 o.total_volume)).sum) := by
  constructor
  · intro c ps hmem
    have hps : ps = histLookup c (coinPriceHistory store now) :=
      (mem_assoc_eq_lookup (nodup_hist_keys store now) hmem).symm
    rw [hps, coinPriceHistory_lookup, List.map_map]
    have := nodup_days_filter_coin store now c
    simpa [Function.comp] using this
  · intro d v hmem
    rw [tradedSeries] at hmem
    have hmem2 : (d, v) ∈ volumeByDay (tradedDocs startP endP store now) := mem_sortLe.mp hmem
    rw [volumeByDay] at hmem2
    rcases List.mem_map.mp hmem2 with ⟨k, _, hk⟩
    rcases Prod.mk.injEq .. ▸ hk with ⟨rfl, rfl⟩
    rfl

/-- C2 witness: the per-day totals of the duplicate-day store satisfy
the raw-sum characterization. -/
theorem claim2_witness :
    (200 : ℚ) = (((tradedDocs none none dupDayStore (dayD + 2 * 86400)).filter
      (fun o => dayOf o.date = 20000)).map (fun o => numOr0 o.total_volume)).sum :=
  (claim2_dedup_amended dupDayStore (dayD + 2 * 86400) none none).2 20000 200
    (by
      have h : tradedSeries none none dupDayStore (dayD + 2 * 86400) = [(20000, 200)] := by
        with_unfolding_all rfl
      rw [h]
      exact List.mem_singleton.mpr rfl)

/-! ### The movers ranking -/

theorem moverCmp_total (g : Bool) (a b : Mover) :
    moverCmp g a b = true ∨ moverCmp g b a = true := by
  cases g
  · simp only [moverCmp]
    simp only [Bool.false_eq_true, if_false, decide_eq_true_eq]
    exact le_total _ _
  · simp only [moverCmp]
    simp only [if_true, decide_eq_true_eq]
    exact le_total _ _

theorem moverCmp_trans (g : Bool) (a b c : Mover) (h1 : moverCmp g a b = true)
    (h2 : moverCmp g b c = true) : moverCmp g a c = true := by
  cases g
  · simp only [moverCmp, Bool.false_eq_true, if_false, decide_eq_true_eq] at h1 h2 ⊢
    exact le_trans h1 h2
  · simp only [moverCmp, if_true, decide_eq_true_eq] at h1 h2 ⊢
    exact le_trans h2 h1

theorem mem_movers_elim {hist : List (String × List Point)} {m : Mover}
    (h : m ∈ movers hist) :
    ∃ e ∈ hist, 2 ≤ e.2.length ∧ m = ⟨e.1, pctOf e.2, e.2⟩ := by
  rw [movers] at h
  rcases List.mem_filterMap.mp h with ⟨e, he, hsome⟩
  by_cases hlen : 2 ≤ e.2.length
  · rw [if_pos hlen] at hsome
    exact ⟨e, he, hlen, (Option.some.injEq .. ▸ hsome).symm⟩
  · rw [if_neg hlen] at hsome
    exact absurd hsome (Option.noConfusion)

theorem hist_entry_unique {store : List Obs} {now : Nat} {c : String}
    {ps ps2 : List Point} (h1 : (c, ps) ∈ coinPriceHistory store now)
    (h2 : (c, ps2) ∈ coinPriceHistory store now) : ps = ps2 := by
  have e1 := mem_assoc_eq_lookup (nodup_hist_keys store now) h1
  have e2 := mem_assoc_eq_lookup (nodup_hist_keys store now) h2
  rw [← e1, ← e2]

/-- C5: every coin with at least 2 daily points in its windowed history
is scored with `pctOf` (which is `(last - first)/first*100`, or `0.0`
when the first price is zero); coins with fewer than 2 points never
appear in the output; the ranking list is sorted on the full-precision
percentage (descending for gainers, ascending for losers) and truncated
to 10; and the output rounds the percentage to 2 decimals only after
ranking. -/
theorem claim5_top_movers_contract (g : Bool) (store : List Obs) (now : Nat) :
    (∀ c ps, (c, ps) ∈ coinPriceHistory store now → 2 ≤ ps.length →
      (⟨c, pctOf ps, ps⟩ : Mover) ∈ movers (coinPriceHistory store now)) ∧
    (∀ m ∈ movers (coinPriceHistory store now),
      2 ≤ m.price_history.length ∧ m.percentage_change = pctOf m.price_history) ∧
    (∀ ps : List Point, ∀ a b : Point, ps.head? = some a → ps.getLast? = some b →
      pctOf ps = if a.price = 0 then 0 else (b.price - a.price) / a.price * 100) ∧
    (∀ c ps, (c, ps) ∈ coinPriceHistory store now → ps.length < 2 →
      ∀ m ∈ topMoversList g store now, m.symbol ≠ c) ∧
    List.Pairwise (fun a b : Mover =>
      if g = true then b.percentage_change ≤ a.percentage_change
      else a.percentage_change ≤ b.percentage_change) (rankedMovers g store now) ∧
    topMoversList g store now = (rankedMovers g store now).map
      (fun m => ⟨m.symbol, round2 m.percentage_change, m.price_history⟩) ∧
    (rankedMovers g store now).length ≤ 10 := by
  refine ⟨?_, ?_, ?_, ?_, ?_, rfl, ?_⟩
  · intro c ps hmem hlen
    rw [movers]
    exact List.mem_filterMap.mpr ⟨(c, ps), hmem, by rw [if_pos hlen]⟩
  · intro m hm
    rcases mem_movers_elim hm with ⟨e, _, hlen, rfl⟩
    exact ⟨hlen, rfl⟩
  · intro ps a b ha hb
    rw [pctOf, ha, hb]
    by_cases h : a.price = 0 <;> simp [h]
  · intro c ps hmem hlen m hm
    intro hsym
    rcases List.mem_map.mp hm with ⟨m0, hm0, rfl⟩
    have hm1 : m0 ∈ movers (coinPriceHistory store now) :=
      mem_sortLe.mp (List.mem_of_mem_take hm0)
    rcases mem_movers_elim hm1 with ⟨e, he, hlen2, rfl⟩
    have hec : e.1 = c := hsym
    have hmem2 : (c, e.2) ∈ coinPriceHistory store now := by
      rcases e with ⟨e1, e2⟩
      rw [show e1 = c from hec] at he
      exact he
    have : ps = e.2 := hist_entry_unique hmem hmem2
    rw [← this] at hlen2
    omega
  · have hsorted := pairwise_sortLe (moverCmp_total g) (moverCmp_trans g)
      (movers (coinPriceHistory store now))
    have htake := List.Pairwise.sublist (List.take_sublist 10 _) hsorted
    refine htake.imp (fun h => ?_)
    cases g
    · simp only [moverCmp, if_false, Bool.false_eq_true, if_neg, not_false_iff] at h
      simpa using of_decide_eq_true (by simpa using h)
    · simp only [moverCmp, if_true] at h
      simpa using of_decide_eq_true (by simpa using h)
  · exact List.length_take_le 10 _

/-- C5 witness: in the concrete movers store, the coin with two window
points is scored and listed with `pctOf = 50`. -/
theorem claim5_witness :
    (⟨"aa", 50, [⟨dayD, 100⟩, ⟨dayD + 86400, 150⟩]⟩ : Mover) ∈
      movers (coinPriceHistory moversStore (dayD + 2 * 86400)) := by
  have hmem : ("aa", [(⟨dayD, 100⟩ : Point), ⟨dayD + 86400, 150⟩]) ∈
      coinPriceHistory moversStore (dayD + 2 * 86400) := by
    have h : coinPriceHistory moversStore (dayD + 2 * 86400) =
        [("aa", [⟨dayD, 100⟩, ⟨dayD + 86400, 150⟩]), ("bb", [⟨dayD, 7⟩])] := by
      with_unfolding_all rfl
    rw [h]
    exact List.mem_cons_self _ _
  have hp : pctOf [(⟨dayD, 100⟩ : Point), ⟨dayD + 86400, 150⟩] = 50 := by
    with_unfolding_all rfl
  have hres := (claim5_top_movers_contract true moversStore (dayD + 2 * 86400)).1
    "aa" [⟨dayD, 100⟩, ⟨dayD + 86400, 150⟩] hmem (by simp)
  rw [hp] at hres
  exact hres

/-- C9 amended: every Query Façade operation is a pure function of the
store state and the clock instant passed for `datetime.utcnow()`: equal
stores and equal clocks give identical output (and `top_coins` reads no
clock at all, so it depends on the store alone).  Byte-identical output
across two real invocations additionally requires the 7-day/30-day
windows not to have slid, see the counterexample. -/
theorem claim9_determinism_amended (s1 s2 : List Obs) (t1 t2 : Nat) (g : Bool)
    (sp ep : Option Nat) (hs : s1 = s2) (ht : t1 = t2) :
    top_coins s1 = top_coins s2 ∧
    get_top_movers g s1 t1 = get_top_movers g s2 t2 ∧
    traded_volume sp ep s1 t1 = traded_volume sp ep s2 t2 ∧
    market_sentiment s1 t1 = market_sentiment s2 t2 := by
  subst hs
  subst ht
  exact ⟨rfl, rfl, rfl, rfl⟩

/-- C9 witness: the amended determinism at a concrete store and clock. -/
theorem claim9_witness :
    top_coins twoDayStore = top_coins twoDayStore ∧
    get_top_movers true twoDayStore dayD = get_top_movers true twoDayStore dayD ∧
    traded_volume none none twoDayStore dayD = traded_volume none none twoDayStore dayD ∧
    market_sentiment twoDayStore dayD = market_sentiment twoDayStore dayD :=
  claim9_determinism_amended twoDayStore twoDayStore dayD dayD true none none rfl rfl

/-- C10: the per-coin parse-and-accumulate step of `market_sentiment` is
atomic: if a coin is present in both snapshots but parsing any one of
`last_price`, `previous_price` or `market_cap` fails, the coin leaves
all three accumulators untouched and the loop over the remaining coins
proceeds exactly as if the coin were absent. -/
theorem claim10_parse_atomicity (prev : List (String × Obs)) (s : SentState)
    (e : String × Obs) (q : Obs) (l1 l2 : List (String × Obs))
    (hq : (prev.find? (fun p => p.1 = e.1)).map Prod.snd = some q)
    (hfail : parseField e.2.price = none ∨ parseField q.price = none ∨
      parseField e.2.market_cap = none) :
    (l1 ++ e :: l2).foldl (sentStep prev) s = (l1 ++ l2).foldl (sentStep prev) s := by
  have hnone : parse3 prev e = none := by
    simp only [parse3, hq]
    cases h1 : parseField e.2.price <;> cases h2 : parseField q.price <;>
      cases h3 : parseField e.2.market_cap <;> simp_all
  rw [List.foldl_append, List.foldl_cons, sentStep_none hnone, ← List.foldl_append]

/-- The 7-day-earlier snapshot used by the C10 witness. -/
def badCoinPrev : List (String × Obs) :=
  [("x", ⟨"x", dayD - 7 * 86400, .null, .num 1, .null⟩)]

/-- A latest-snapshot entry whose price is null, so its parse fails. -/
def badCoinEntry : String × Obs := ("x", ⟨"x", dayD, .null, .num 5, .null⟩)

/-- C10 witness: a coin with a null price contributes nothing and the
fold result is the same as without it. -/
theorem claim10_witness :
    ([] ++ badCoinEntry :: []).foldl (sentStep badCoinPrev) ⟨0, 0, 0⟩ =
      (([] : List (String × Obs)) ++ []).foldl (sentStep badCoinPrev) ⟨0, 0, 0⟩ :=
  claim10_parse_atomicity badCoinPrev ⟨0, 0, 0⟩ badCoinEntry
    ⟨"x", dayD - 7 * 86400, .null, .num 1, .null⟩ [] []
    (by with_unfolding_all rfl) (Or.inl rfl)
